import Mathlib

/-!
Shallow embedding of `HaloPotential.py` (power-law and NFW gravitational
potential models for a CGM model) over the real numbers, together with
proofs checking the module's specification against the code.

Modelling conventions:
* `astropy` quantities are real numbers in a fixed consistent unit system;
  `.to(...)` unit conversions are the identity on the underlying quantity.
* The external cosmology collaborator (`Planck15`) supplies, for the
  instance's redshift `z`, the values `Om = cosmo.Om(z)`,
  `rhocrit = cosmo.critical_density(z)` and `h0 = cosmo.H0/100`; these are
  recorded as fields of the embedded structure since they are inputs from
  an external provider, not code of this module.
* `numpy.arange(start, stop, step)` (step > 0) is the list
  `[start + k*step | k < ⌈(stop - start)/step⌉]`.
* `numpy.searchsorted(a, v)` (default side `left`), on an ascending-sorted
  array, returns the first index `i` with `v ≤ a i`, and `a.length` when
  there is none; the arrays it is applied to here are negations of the
  strictly decreasing `mean_enclosed_rho2rhocrit` sequence, hence sorted
  ascending.
* Python indexing `rs[i]` past the end raises `IndexError`; the embedded
  lookup returns `Option ℝ`, with `none` for the out-of-range case.
-/

noncomputable section

open Real

/-- Embedding of `numpy.arange` for a positive step. -/
def arange (start stop step : ℝ) : List ℝ :=
  (List.range (Int.toNat ⌈(stop - start) / step⌉)).map
    (fun k : ℕ => start + (k : ℝ) * step)

/-- Embedding of `numpy.searchsorted` (side `left`) by its contract on
ascending-sorted input: the first index whose element is `≥ v`. -/
def searchsorted (a : List ℝ) (v : ℝ) : ℕ :=
  a.findIdx (fun x => decide (v ≤ x))

/-- Newton's gravitational constant `cons.G` (a fixed positive value). -/
def Gconst : ℝ := 66743 / 10 ^ 15

/-- Hydrogen mass fraction `X` from the module header. -/
def Xfrac : ℝ := 3 / 4

/-- Mean molecular weight `mu = 4/(3+5X)` from the module header. -/
def mu : ℝ := 4 / (3 + 5 * Xfrac)

/-- Proton mass `mp` (a fixed positive value, grams). -/
def mprot : ℝ := 16726 / 10 ^ 28

/-! ## PowerLaw -/

/-- State of a `PowerLaw` potential: fields fixed by `PowerLaw.__init__`.
The constructor stores `R_phi0 = R_phi0_to_Rvir * Rvir` (default ratio 10). -/
structure PowerLaw where
  m : ℝ
  vc_Rvir : ℝ
  Rvir : ℝ
  R_phi0 : ℝ

/-- `PowerLaw.__init__` with the ratio argument (default 10). -/
def PowerLaw.ofRatio (m vc_Rvir Rvir R_phi0_to_Rvir : ℝ) : PowerLaw :=
  ⟨m, vc_Rvir, Rvir, R_phi0_to_Rvir * Rvir⟩

/-- `PowerLaw.vc`: `vc_Rvir * (r/Rvir)**m`. -/
def PowerLaw.vc (pl : PowerLaw) (r : ℝ) : ℝ :=
  pl.vc_Rvir * (r / pl.Rvir) ^ pl.m

/-- `PowerLaw.Phi`, with the code's branch on `m != 0`. -/
def PowerLaw.Phi (pl : PowerLaw) (r : ℝ) : ℝ :=
  if pl.m ≠ 0 then
    -pl.vc_Rvir ^ 2 / (2 * pl.m) *
      ((pl.R_phi0 / pl.Rvir) ^ (2 * pl.m) - (r / pl.Rvir) ^ (2 * pl.m))
  else
    -pl.vc_Rvir ^ 2 * Real.log (pl.R_phi0 / r)

/-- `PowerLaw.dlnvc_dlnR`: the constant `m`. -/
def PowerLaw.dlnvc_dlnR (pl : PowerLaw) (_r : ℝ) : ℝ := pl.m

/-! ## NFW -/

/-- State of an `NFW` halo.  `Mvir`, `z`, `cvir0` (the optional `cvir`
argument) and `fdr` are the constructor arguments; `h0`, `Om`, `rhocrit`
are the values supplied by the external cosmology collaborator at this
instance's redshift. -/
structure NFW where
  Mvir : ℝ
  z : ℝ
  cvir0 : Option ℝ
  fdr : ℝ
  h0 : ℝ
  Om : ℝ
  rhocrit : ℝ

/-- Concentration: the supplied `cvir`, or the Duffy et al. 2008 fit when
the argument was `None`. -/
def NFW.cvir (n : NFW) : ℝ :=
  match n.cvir0 with
  | some c => c
  | none => 7.85 * (n.Mvir / (2 * 10 ^ 12) * n.h0) ^ (-(81 : ℝ) / 1000) *
      (1 + n.z) ^ (-(71 : ℝ) / 100)

/-- `NFW.Delta_c` (Bryan & Norman 98): `18π² + 82x - 39x²`, `x = Om(z) - 1`. -/
def NFW.Delta_c (n : NFW) : ℝ :=
  18 * π ^ 2 + 82 * (n.Om - 1) - 39 * (n.Om - 1) ^ 2

/-- `NFW.rvir`: `(Mvir / ((4/3)π Delta_c rhocrit))^(1/3)`. -/
def NFW.rvir (n : NFW) : ℝ :=
  (n.Mvir / (4 / 3 * π * n.Delta_c * n.rhocrit)) ^ ((1 : ℝ) / 3)

/-- `NFW.r_scale`: `rvir / cvir`. -/
def NFW.r_scale (n : NFW) : ℝ := n.rvir / n.cvir

/-- `self.dr`, the radial step fixed in `NFW.__init__`: `r_scale / fdr`. -/
def NFW.dr (n : NFW) : ℝ := n.r_scale / n.fdr

/-- `NFW.rho2rho_scale`: the dimensionless NFW shape
`4 / ((r/r_scale)(1+r/r_scale)²)`. -/
def NFW.rho2rho_scale (n : NFW) (r : ℝ) : ℝ :=
  4 / ((r / n.r_scale) * (1 + r / n.r_scale) ^ 2)

/-- The radial grid `arange(dr, rvir, dr)` built in `NFW.__init__`. -/
def NFW.grid1 (n : NFW) : List ℝ := arange n.dr n.rvir n.dr

/-- `self.rho_scale` as computed in `NFW.__init__`: the single
normalization division `Mvir / Σ 4π r² dr f(r)`. -/
def NFW.rho_scale (n : NFW) : ℝ :=
  n.Mvir / ((n.grid1.map (fun r => 4 * π * r ^ 2 * n.dr * n.rho2rho_scale r)).sum)

/-- `NFW.rho`: `rho_scale * rho2rho_scale(r)`. -/
def NFW.rho (n : NFW) (r : ℝ) : ℝ := n.rho_scale * n.rho2rho_scale r

/-- `NFW.enclosedMass`:
`16π rho_scale r_scale³ (ln(1+r/r_scale) - (r_scale/r + 1)⁻¹)`. -/
def NFW.enclosedMass (n : NFW) (r : ℝ) : ℝ :=
  16 * π * n.rho_scale * n.r_scale ^ 3 *
    (Real.log (1 + r / n.r_scale) - (n.r_scale / r + 1)⁻¹)

/-- `NFW.v_vir`: `sqrt(G Mvir / rvir)`. -/
def NFW.v_vir (n : NFW) : ℝ := Real.sqrt (Gconst * n.Mvir / n.rvir)

/-- `NFW.vc`: `sqrt(G enclosedMass(r) / r)`. -/
def NFW.vc (n : NFW) (r : ℝ) : ℝ := Real.sqrt (Gconst * n.enclosedMass r / r)

/-- `NFW.mean_enclosed_rho2rhocrit`:
`enclosedMass(r) / ((4/3)π r³) / rhocrit`. -/
def NFW.mean_enclosed_rho2rhocrit (n : NFW) (r : ℝ) : ℝ :=
  n.enclosedMass r / (4 / 3 * π * r ^ 3) / n.rhocrit

/-- The radial grid `arange(dr, 2*rvir, dr)` built inside each of
`r200`, `r500`, `r200m`, `r500m`. -/
def NFW.grid2 (n : NFW) : List ℝ := arange n.dr (2 * n.rvir) n.dr

/-- `NFW.r200`: `rs[searchsorted(-mean_rho2rhocrit, -delta)]`; `none`
models the `IndexError` raised when the index is past the end. -/
def NFW.r200? (n : NFW) (delta : ℝ) : Option ℝ :=
  (n.grid2)[searchsorted ((n.grid2).map
    (fun r => -(n.mean_enclosed_rho2rhocrit r))) (-delta)]?

/-- `NFW.r500`: body identical to `r200` (only the Python default differs). -/
def NFW.r500? (n : NFW) (delta : ℝ) : Option ℝ :=
  (n.grid2)[searchsorted ((n.grid2).map
    (fun r => -(n.mean_enclosed_rho2rhocrit r))) (-delta)]?

/-- `NFW.r200m`: threshold `delta * Om(z)`. -/
def NFW.r200m? (n : NFW) (delta : ℝ) : Option ℝ :=
  (n.grid2)[searchsorted ((n.grid2).map
    (fun r => -(n.mean_enclosed_rho2rhocrit r))) (-(delta * n.Om))]?

/-- `NFW.r500m`: body identical to `r200m`. -/
def NFW.r500m? (n : NFW) (delta : ℝ) : Option ℝ :=
  (n.grid2)[searchsorted ((n.grid2).map
    (fun r => -(n.mean_enclosed_rho2rhocrit r))) (-(delta * n.Om))]?

/-- `NFW.M200`: `enclosedMass(r200(delta))`. -/
def NFW.M200? (n : NFW) (delta : ℝ) : Option ℝ :=
  (n.r200? delta).map n.enclosedMass

/-- `NFW.M200m`: `enclosedMass(r200m(delta))`. -/
def NFW.M200m? (n : NFW) (delta : ℝ) : Option ℝ :=
  (n.r200m? delta).map n.enclosedMass

/-- `NFW.g`: `G enclosedMass(r) / r²`. -/
def NFW.gacc (n : NFW) (r : ℝ) : ℝ := Gconst * n.enclosedMass r / r ^ 2

/-- `NFW.t_ff`: `sqrt 2 * r / vc(r)`. -/
def NFW.t_ff (n : NFW) (r : ℝ) : ℝ := Real.sqrt 2 * r / n.vc r

/-- `NFW.dlnvc_dlnR`: the code's closed-form expression with
`A = r_scale + r`, `B = ln(A/r_scale)`. -/
def NFW.dlnvc_dlnR (n : NFW) (r : ℝ) : ℝ :=
  let A := n.r_scale + r
  let B := Real.log (A / n.r_scale)
  0.5 * (-r ^ 2 + A * (-r + A * B)) / (A * (r - A * B))

/-- `NFW.Phi`: `-16π G rho_scale r_scale³ / r * ln(1+r/r_scale)`. -/
def NFW.Phi (n : NFW) (r : ℝ) : ℝ :=
  -(16 * π * Gconst * n.rho_scale * n.r_scale ^ 3 / r *
    Real.log (1 + r / n.r_scale))

/-! ## NFW_withGalaxy -/

/-- State of an `NFW_withGalaxy` instance: the halo fields plus the
galaxy mass `Mgalaxy` and disk scale length `Rd` (`scale_length`). -/
structure NFWg where
  toNFW : NFW
  Mgalaxy : ℝ
  Rd : ℝ

/-- `NFW_withGalaxy.enclosedMass_galaxy`:
`(1 - e^{-(r/Rd)} (Rd+r)/Rd) * Mgalaxy`. -/
def NFWg.enclosedMass_galaxy (g : NFWg) (r : ℝ) : ℝ :=
  (1 - Real.exp (-(r / g.Rd)) * (g.Rd + r) / g.Rd) * g.Mgalaxy

/-- `NFW_withGalaxy.enclosedMass`: `super().enclosedMass(r) + galaxy`. -/
def NFWg.enclosedMass (g : NFWg) (r : ℝ) : ℝ :=
  g.toNFW.enclosedMass r + g.enclosedMass_galaxy r

/-- `NFW.vc` as dispatched on an `NFW_withGalaxy` instance: `self.enclosedMass`
resolves to the overridden total mass. -/
def NFWg.vc (g : NFWg) (r : ℝ) : ℝ := Real.sqrt (Gconst * g.enclosedMass r / r)

/-- `NFW_withGalaxy.Phi`: `super().Phi(r) + G Mgalaxy (e^{-(r/Rd)} - 1)/r`. -/
def NFWg.Phi (g : NFWg) (r : ℝ) : ℝ :=
  g.toNFW.Phi r + Gconst * g.Mgalaxy * (Real.exp (-(r / g.Rd)) - 1) / r

/-- `NFW_withGalaxy.mean_enclosed_rho2rhocrit` ("does not include galaxy"):
written exactly as the override, with `super().enclosedMass`. -/
def NFWg.mean_enclosed_rho2rhocrit (g : NFWg) (r : ℝ) : ℝ :=
  g.toNFW.enclosedMass r / (4 / 3 * π * r ^ 3) / g.toNFW.rhocrit

/-- `NFW.r200` as dispatched on an `NFW_withGalaxy` instance:
`self.mean_enclosed_rho2rhocrit` resolves to the (halo-only) override. -/
def NFWg.r200? (g : NFWg) (delta : ℝ) : Option ℝ :=
  (g.toNFW.grid2)[searchsorted ((g.toNFW.grid2).map
    (fun r => -(g.mean_enclosed_rho2rhocrit r))) (-delta)]?

/-- `NFW.r200m` as dispatched on an `NFW_withGalaxy` instance. -/
def NFWg.r200m? (g : NFWg) (delta : ℝ) : Option ℝ :=
  (g.toNFW.grid2)[searchsorted ((g.toNFW.grid2).map
    (fun r => -(g.mean_enclosed_rho2rhocrit r))) (-(delta * g.toNFW.Om))]?

/-- `NFW_withGalaxy.M200` ("does not include galaxy"):
`super().enclosedMass(self.r200(delta))`. -/
def NFWg.M200? (g : NFWg) (delta : ℝ) : Option ℝ :=
  (g.r200? delta).map g.toNFW.enclosedMass

/-- `NFW_withGalaxy.M200m` ("does not include galaxy"). -/
def NFWg.M200m? (g : NFWg) (delta : ℝ) : Option ℝ :=
  (g.r200m? delta).map g.toNFW.enclosedMass

/-- The elementwise value returned by `NFW_withGalaxy.dlnvc_dlnR`:
`A*AA + B*BB` with the code's intermediates. -/
def NFWg.dlnvc_dlnR_term (g : NFWg) (r : ℝ) : ℝ :=
  let vc2_halo := Gconst * g.toNFW.enclosedMass r / r
  let AA := vc2_halo / g.vc r ^ 2
  let A := g.toNFW.dlnvc_dlnR r
  let dvc2_glx_dr := Gconst * g.Mgalaxy / r / r *
    (Real.exp (-(r / g.Rd)) * (r ^ 2 + g.Rd ^ 2 + r * g.Rd) / g.Rd ^ 2 - 1)
  let vc2_galaxy := Gconst * g.enclosedMass_galaxy r / r
  let B := 0.5 * r * dvc2_glx_dr / vc2_galaxy
  let BB := vc2_galaxy / g.vc r ^ 2
  A * AA + B * BB

/-- `NFW_withGalaxy.dlnvc_dlnR` on an array of radii.  Before returning, the
method executes `print(vc2_halo[20], ...)`, which demands element 20 of the
intermediate arrays (and is a write to stdout); on a scalar or an array of
fewer than 21 radii this raises, modelled by `none`. -/
def NFWg.dlnvc_dlnR_arr (g : NFWg) (rs : List ℝ) : Option (List ℝ) :=
  if rs.length ≤ 20 then none
  else some (rs.map (fun r => g.dlnvc_dlnR_term r))

/-! ## Concrete test instance

With `Om = 1` the Bryan & Norman overdensity is `18π²`; choosing
`rhocrit = 1/(24π³)` and `Mvir = 1` makes `rvir = 1` exactly, so all grid
quantities of `testInst fdr` are explicit rationals. -/

/-- A family of concrete `NFW` instances (parametrised by `fdr`) used to
evaluate the embedded code on explicit inputs. -/
def testInst (f : ℝ) : NFW :=
  { Mvir := 1, z := 0, cvir0 := some 1, fdr := f, h0 := 7 / 10, Om := 1,
    rhocrit := 1 / (24 * π ^ 3) }

theorem testInst_cvir (f : ℝ) : (testInst f).cvir = 1 := rfl

theorem testInst_Delta_c (f : ℝ) : (testInst f).Delta_c = 18 * π ^ 2 := by
  simp [NFW.Delta_c, testInst]

theorem testInst_rvir (f : ℝ) : (testInst f).rvir = 1 := by
  have hπ : (π : ℝ) ≠ 0 := Real.pi_ne_zero
  have hbase : (testInst f).Mvir /
      (4 / 3 * π * (testInst f).Delta_c * (testInst f).rhocrit) = 1 := by
    rw [testInst_Delta_c]
    show (1 : ℝ) / (4 / 3 * π * (18 * π ^ 2) * (1 / (24 * π ^ 3))) = 1
    field_simp
    ring
  rw [NFW.rvir, hbase, Real.one_rpow]

theorem testInst_r_scale (f : ℝ) : (testInst f).r_scale = 1 := by
  rw [NFW.r_scale, testInst_rvir, testInst_cvir, div_one]

theorem testInst_dr (f : ℝ) : (testInst f).dr = 1 / f := by
  rw [NFW.dr, testInst_r_scale]
  simp [testInst]

/-! ## Lemmas on the embedded numpy primitives -/

theorem findIdx_map_comp {α β : Type} (g : α → β) (p : β → Bool) (l : List α) :
    (l.map g).findIdx p = l.findIdx (fun x => p (g x)) := by
  induction l with
  | nil => rfl
  | cons a l ih => simp [List.findIdx_cons, ih]

/-- `searchsorted` applied, as in the source, to the negated values of `f`
on a list with target `-d`, finds the first index where `f ≤ d`. -/
theorem searchsorted_neg_eq_findIdx (f : ℝ → ℝ) (l : List ℝ) (d : ℝ) :
    searchsorted (l.map fun r => -(f r)) (-d) =
      l.findIdx (fun r => decide (f r ≤ d)) := by
  rw [searchsorted, findIdx_map_comp]
  congr 1
  funext r
  simp [neg_le_neg_iff]

/-- When some element of `l` satisfies `f x ≤ d`, the source's
`l[searchsorted(-f(l), -d)]` lookup returns the first such element. -/
theorem crossing_lookup (f : ℝ → ℝ) (l : List ℝ) (d : ℝ)
    (h : ∃ x ∈ l, f x ≤ d) :
    ∃ (i : ℕ) (hi : i < l.length),
      (l[searchsorted (l.map fun r => -(f r)) (-d)]? : Option ℝ) =
        some (l.get ⟨i, hi⟩) ∧
      f (l.get ⟨i, hi⟩) ≤ d ∧
      ∀ j (hj : j < i), d < f (l.get ⟨j, hj.trans hi⟩) := by
  rw [searchsorted_neg_eq_findIdx]
  set p : ℝ → Bool := fun r => decide (f r ≤ d) with hp
  have hex : ∃ x ∈ l, p x := by
    obtain ⟨x, hx, hfx⟩ := h
    exact ⟨x, hx, by simp [hp, hfx]⟩
  have hi : l.findIdx p < l.length := List.findIdx_lt_length_of_exists hex
  refine ⟨l.findIdx p, hi, ?_, ?_, ?_⟩
  · exact List.getElem?_eq_getElem hi
  · have := @List.findIdx_getElem _ p l hi
    simpa [hp] using this
  · intro j hj
    have := List.not_of_lt_findIdx hj
    simp only [hp, decide_eq_false_iff_not, not_le] at this
    simpa using this

/-- When no element of `l` satisfies `f x ≤ d`, the search index is past
the end and the lookup is out of range. -/
theorem no_crossing_lookup (f : ℝ → ℝ) (l : List ℝ) (d : ℝ)
    (h : ∀ x ∈ l, d < f x) :
    (l[searchsorted (l.map fun r => -(f r)) (-d)]? : Option ℝ) = none := by
  rw [searchsorted_neg_eq_findIdx]
  have hall : ∀ x ∈ l, (fun r => decide (f r ≤ d)) x = false := by
    intro x hx
    simp [not_le.mpr (h x hx)]
  rw [List.findIdx_eq_length_of_false hall]
  exact List.getElem?_eq_none (le_refl _)

/-- Elements of `arange a b s` with `0 < a`, `0 ≤ s` are positive. -/
theorem arange_mem_pos {a b s x : ℝ} (ha : 0 < a) (hs : 0 ≤ s)
    (hx : x ∈ arange a b s) : 0 < x := by
  obtain ⟨k, _, rfl⟩ := List.mem_map.mp hx
  have : (0 : ℝ) ≤ (k : ℝ) * s := mul_nonneg (Nat.cast_nonneg k) hs
  linarith

/-- Length of the embedded `arange`. -/
theorem arange_length (a b s : ℝ) :
    (arange a b s).length = Int.toNat ⌈(b - a) / s⌉ := by
  simp [arange]

/-- `arange a b s` is nonempty as soon as `a < b` and `0 < s`. -/
theorem arange_ne_nil {a b s : ℝ} (hab : a < b) (hs : 0 < s) :
    arange a b s ≠ [] := by
  have hpos : (0 : ℝ) < (b - a) / s := div_pos (by linarith) hs
  have hceil : 0 < ⌈(b - a) / s⌉ := Int.ceil_pos.mpr hpos
  have hlen : 0 < (arange a b s).length := by
    rw [arange_length]; omega
  exact List.ne_nil_of_length_pos hlen

theorem testInst2_dr : (testInst 2).dr = 1 / 2 := by
  rw [testInst_dr]

theorem testInstHalf_dr : (testInst (1 / 2)).dr = 2 := by
  rw [testInst_dr]; norm_num

theorem testInst2_grid1 : (testInst 2).grid1 = [1 / 2] := by
  rw [NFW.grid1, testInst_rvir, testInst2_dr]
  have h1 : ((1 : ℝ) - 1 / 2) / (1 / 2) = ((1 : ℤ) : ℝ) := by norm_num
  unfold arange
  rw [h1, Int.ceil_intCast]
  have hr : List.range (Int.toNat 1) = [0] := rfl
  rw [hr]
  norm_num

theorem testInstHalf_grid1 : (testInst (1 / 2)).grid1 = [] := by
  rw [NFW.grid1, testInst_rvir, testInstHalf_dr]
  have h1 : Int.toNat ⌈((1 : ℝ) - 2) / 2⌉ = 0 := by
    have h3 : ⌈((1 : ℝ) - 2) / 2⌉ ≤ 0 := Int.ceil_le.mpr (by norm_num)
    omega
  unfold arange
  rw [h1]
  rfl

theorem testInst2_grid2 : (testInst 2).grid2 = [1 / 2, 1, 3 / 2] := by
  rw [NFW.grid2, testInst_rvir, testInst2_dr]
  have h3 : ((2 : ℝ) * 1 - 1 / 2) / (1 / 2) = ((3 : ℤ) : ℝ) := by norm_num
  unfold arange
  rw [h3, Int.ceil_intCast]
  have hr : List.range (Int.toNat 3) = [0, 1, 2] := rfl
  rw [hr]
  norm_num

theorem testInst2_rho_scale : (testInst 2).rho_scale = 9 / (16 * π) := by
  have hπ : (π : ℝ) ≠ 0 := Real.pi_ne_zero
  rw [NFW.rho_scale, testInst2_grid1, testInst2_dr]
  have hf : (testInst 2).rho2rho_scale (1 / 2) = 32 / 9 := by
    rw [NFW.rho2rho_scale, testInst_r_scale]
    norm_num
  rw [List.map_cons, List.map_nil, hf]
  show (1 : ℝ) / ([4 * π * (1 / 2) ^ 2 * (1 / 2) * (32 / 9)].sum) = 9 / (16 * π)
  rw [List.sum_cons, List.sum_nil]
  field_simp
  ring

/-! ## Positivity helpers -/

theorem NFW.rvir_pos (n : NFW) (hM : 0 < n.Mvir) (hΔ : 0 < n.Delta_c)
    (hrc : 0 < n.rhocrit) : 0 < n.rvir := by
  have hden : 0 < 4 / 3 * π * n.Delta_c * n.rhocrit :=
    mul_pos (mul_pos (mul_pos (by norm_num) Real.pi_pos) hΔ) hrc
  exact Real.rpow_pos_of_pos (div_pos hM hden) _

theorem NFW.r_scale_pos (n : NFW) (hM : 0 < n.Mvir) (hΔ : 0 < n.Delta_c)
    (hrc : 0 < n.rhocrit) (hc : 0 < n.cvir) : 0 < n.r_scale :=
  div_pos (n.rvir_pos hM hΔ hrc) hc

theorem NFW.dr_pos (n : NFW) (hM : 0 < n.Mvir) (hΔ : 0 < n.Delta_c)
    (hrc : 0 < n.rhocrit) (hc : 0 < n.cvir) (hf : 0 < n.fdr) : 0 < n.dr :=
  div_pos (n.r_scale_pos hM hΔ hrc hc) hf

theorem NFW.rho2rho_scale_pos (n : NFW) {r : ℝ} (hrs : 0 < n.r_scale)
    (hr : 0 < r) : 0 < n.rho2rho_scale r := by
  have h1 : 0 < r / n.r_scale := div_pos hr hrs
  have h2 : 0 < (1 + r / n.r_scale) ^ 2 := by positivity
  exact div_pos (by norm_num) (mul_pos h1 h2)

/-- The normalization sum computed in `NFW.__init__` is positive when the
construction grid is nonempty. -/
theorem NFW.normSum_pos (n : NFW) (hM : 0 < n.Mvir) (hΔ : 0 < n.Delta_c)
    (hrc : 0 < n.rhocrit) (hc : 0 < n.cvir) (hf : 0 < n.fdr)
    (hgrid : n.dr < n.rvir) :
    0 < ((n.grid1.map (fun r => 4 * π * r ^ 2 * n.dr * n.rho2rho_scale r)).sum) := by
  have hdr := n.dr_pos hM hΔ hrc hc hf
  have hrs := n.r_scale_pos hM hΔ hrc hc
  apply List.sum_pos
  · intro x hx
    obtain ⟨r, hr, rfl⟩ := List.mem_map.mp hx
    have hrpos : 0 < r := arange_mem_pos hdr hdr.le hr
    have hterm : 0 < 4 * π * r ^ 2 * n.dr :=
      mul_pos (mul_pos (mul_pos (by norm_num) Real.pi_pos) (by positivity)) hdr
    exact mul_pos hterm (n.rho2rho_scale_pos hrs hrpos)
  · have hne : n.grid1 ≠ [] := arange_ne_nil hgrid hdr
    intro hmap
    exact hne (List.map_eq_nil_iff.mp hmap)

/-- Claim C1: with `cvir > 0` and `fdr > 0`, and — as the counterexample
`C1_normalization_counterexample` forces — a construction grid that is
nonempty (`radial_step < rvir`, i.e. `cvir·fdr > 1`), the discretized
integral of `4π r² · radial_step · rho_scale · f(r)` over
`arange(radial_step, rvir, radial_step)` reproduces `Mvir` exactly, and
`rho_scale` is the stated single normalization division. -/
theorem C1_normalization (n : NFW) (hc : 0 < n.cvir) (hf : 0 < n.fdr)
    (hM : 0 < n.Mvir) (hΔ : 0 < n.Delta_c) (hrc : 0 < n.rhocrit)
    (hgrid : n.dr < n.rvir) :
    ((n.grid1.map
      (fun r => 4 * π * r ^ 2 * n.dr * n.rho_scale * n.rho2rho_scale r)).sum)
      = n.Mvir ∧
    n.rho_scale = n.Mvir /
      ((n.grid1.map (fun r => 4 * π * r ^ 2 * n.dr * n.rho2rho_scale r)).sum) := by
  refine ⟨?_, rfl⟩
  have hS := n.normSum_pos hM hΔ hrc hc hf hgrid
  have hfun : (fun r => 4 * π * r ^ 2 * n.dr * n.rho_scale * n.rho2rho_scale r)
      = (fun r => n.rho_scale * (4 * π * r ^ 2 * n.dr * n.rho2rho_scale r)) := by
    funext r
    ring
  rw [hfun, List.sum_map_mul_left, NFW.rho_scale, div_mul_cancel₀ _ (ne_of_gt hS)]

/-- Claim C1 fails as stated: at the concrete halo `testInst (1/2)`
(`Mvir = 1`, `cvir = 1 > 0`, `fdr = 1/2 > 0`, cosmology values making
`rvir = 1`), the radial step `r_scale/fdr = 2` exceeds `rvir`, the
construction grid is empty, and the discretized integral is `0 ≠ Mvir`. -/
theorem C1_normalization_counterexample :
    0 < (testInst (1 / 2)).cvir ∧ 0 < (testInst (1 / 2)).fdr ∧
    ¬ (((testInst (1 / 2)).grid1.map
      (fun r => 4 * π * r ^ 2 * (testInst (1 / 2)).dr *
        (testInst (1 / 2)).rho_scale * (testInst (1 / 2)).rho2rho_scale r)).sum
      = (testInst (1 / 2)).Mvir) := by
  refine ⟨by rw [testInst_cvir]; norm_num, by norm_num [testInst], ?_⟩
  rw [testInstHalf_grid1]
  show ¬ (([] : List ℝ).sum = (1 : ℝ))
  norm_num

/-- Witness for `C1_normalization` at the concrete halo `testInst 2`. -/
theorem C1_normalization_witness :
    (0 < (testInst 2).cvir ∧ 0 < (testInst 2).fdr ∧ 0 < (testInst 2).Mvir ∧
      0 < (testInst 2).Delta_c ∧ 0 < (testInst 2).rhocrit ∧
      (testInst 2).dr < (testInst 2).rvir) ∧
    ((testInst 2).grid1.map
      (fun r => 4 * π * r ^ 2 * (testInst 2).dr *
        (testInst 2).rho_scale * (testInst 2).rho2rho_scale r)).sum
      = (testInst 2).Mvir := by
  have hc : 0 < (testInst 2).cvir := by rw [testInst_cvir]; norm_num
  have hf : 0 < (testInst 2).fdr := by norm_num [testInst]
  have hM : 0 < (testInst 2).Mvir := by norm_num [testInst]
  have hΔ : 0 < (testInst 2).Delta_c := by
    rw [testInst_Delta_c]; positivity
  have hrc : 0 < (testInst 2).rhocrit := by
    show (0 : ℝ) < 1 / (24 * π ^ 3)
    positivity
  have hgrid : (testInst 2).dr < (testInst 2).rvir := by
    rw [testInst2_dr, testInst_rvir]; norm_num
  exact ⟨⟨hc, hf, hM, hΔ, hrc, hgrid⟩,
    (C1_normalization (testInst 2) hc hf hM hΔ hrc hgrid).1⟩

/-- Claim C5: the exponential-disk cumulative mass of `NFW_withGalaxy`, the
total/halo superposition, and the resulting decomposition identity
`enclosedMass(r) - enclosedMass_galaxy(r) = halo.enclosedMass(r)`. -/
theorem C5_galaxy_mass_decomposition (g : NFWg) (r : ℝ) :
    g.enclosedMass_galaxy r =
      g.Mgalaxy * (1 - Real.exp (-(r / g.Rd)) * (g.Rd + r) / g.Rd) ∧
    g.enclosedMass r = g.toNFW.enclosedMass r + g.enclosedMass_galaxy r ∧
    g.enclosedMass r - g.enclosedMass_galaxy r = g.toNFW.enclosedMass r := by
  refine ⟨by rw [NFWg.enclosedMass_galaxy]; ring, rfl, ?_⟩
  rw [NFWg.enclosedMass]
  ring

/-- Claim C6: on an `NFW_withGalaxy` instance, `mean_enclosed_rho2rhocrit`
agrees with the underlying halo's, the overdensity-radius searches dispatch
to the same (halo-only) ratio and so return the halo's radii, and
`M200`/`M200m` are the halo-only enclosed mass at those radii. -/
theorem C6_halo_only_quantities (g : NFWg) :
    (∀ r, g.mean_enclosed_rho2rhocrit r = g.toNFW.mean_enclosed_rho2rhocrit r) ∧
    (∀ delta, g.r200? delta = g.toNFW.r200? delta) ∧
    (∀ delta, g.r200m? delta = g.toNFW.r200m? delta) ∧
    (∀ delta, g.M200? delta = (g.r200? delta).map g.toNFW.enclosedMass) ∧
    (∀ delta, g.M200m? delta = (g.r200m? delta).map g.toNFW.enclosedMass) :=
  ⟨fun _ => rfl, fun _ => rfl, fun _ => rfl, fun _ => rfl, fun _ => rfl⟩

/-- Claim C7 (refuted; the code, not the claim, is at fault):
`NFW_withGalaxy.dlnvc_dlnR` ends with a `print` of element 20 of its
intermediate arrays, so on a scalar radius — modelled as a one-element
array — the method fails instead of returning the slope. -/
theorem C7_dlnvc_dlnR_scalar_fails (g : NFWg) (r : ℝ) :
    g.dlnvc_dlnR_arr [r] = none := by
  simp [NFWg.dlnvc_dlnR_arr]

/-- Claim C9: the `PowerLaw` contract — `vc`, both `Phi` branches, and the
constant logarithmic slope `m`. -/
theorem C9_powerlaw_contract (pl : PowerLaw) (r : ℝ) :
    pl.vc r = pl.vc_Rvir * (r / pl.Rvir) ^ pl.m ∧
    pl.dlnvc_dlnR r = pl.m ∧
    (pl.m ≠ 0 → pl.Phi r = -pl.vc_Rvir ^ 2 / (2 * pl.m) *
      ((pl.R_phi0 / pl.Rvir) ^ (2 * pl.m) - (r / pl.Rvir) ^ (2 * pl.m))) ∧
    (pl.m = 0 → pl.Phi r = -pl.vc_Rvir ^ 2 * Real.log (pl.R_phi0 / r)) := by
  refine ⟨rfl, rfl, fun hm => ?_, fun hm => ?_⟩
  · rw [PowerLaw.Phi, if_pos hm]
  · rw [PowerLaw.Phi, if_neg (by simp [hm])]

/-- Witness for `C9_powerlaw_contract`, at the default-ratio power laws
with `m = 0` and `m = 1` and radius `r = 2`. -/
theorem C9_powerlaw_contract_witness :
    (PowerLaw.ofRatio 0 1 1 10).m = 0 ∧
    (PowerLaw.ofRatio 0 1 1 10).Phi 2 =
      -(1 : ℝ) ^ 2 * Real.log (10 * 1 / 2) ∧
    (PowerLaw.ofRatio 1 1 1 10).m ≠ 0 ∧
    (PowerLaw.ofRatio 1 1 1 10).Phi 2 =
      -(1 : ℝ) ^ 2 / (2 * 1) *
        ((10 * 1 / 1) ^ ((2 : ℝ) * 1) - (2 / 1) ^ ((2 : ℝ) * 1)) := by
  have h0 := (C9_powerlaw_contract (PowerLaw.ofRatio 0 1 1 10) 2).2.2.2 rfl
  have h1 := (C9_powerlaw_contract (PowerLaw.ofRatio 1 1 1 10) 2).2.2.1
    (by norm_num [PowerLaw.ofRatio])
  exact ⟨rfl, h0, by norm_num [PowerLaw.ofRatio], h1⟩

/-- Claim C10: `r500` and `r200` have identical bodies, as do `r500m` and
`r200m`; as functions of the explicit `delta` argument each pair is equal. -/
theorem C10_duplicate_overdensity_searches (n : NFW) (delta : ℝ) :
    n.r500? delta = n.r200? delta ∧ n.r500m? delta = n.r200m? delta :=
  ⟨rfl, rfl⟩

/-! ## The dimensionless NFW mass shape -/

/-- The dimensionless NFW cumulative-mass shape `ln(1+u) - u/(1+u)`
(`u = r/r_scale`), the bracket of `NFW.enclosedMass`. -/
def nfwShape (u : ℝ) : ℝ := Real.log (1 + u) - u / (1 + u)

/-- `ln(1+u) > u/(1+u)` for `u > 0`. -/
theorem nfwShape_pos {u : ℝ} (hu : 0 < u) : 0 < nfwShape u := by
  have h1 : (0 : ℝ) < 1 + u := by linarith
  have h2 : (1 + u)⁻¹ < 1 := inv_lt_one_of_one_lt₀ (by linarith)
  have h3 := Real.log_lt_sub_one_of_pos (inv_pos.mpr h1) (ne_of_lt h2)
  rw [Real.log_inv] at h3
  have h4 : 1 - (1 + u)⁻¹ = u / (1 + u) := by
    field_simp
  rw [nfwShape]
  linarith [h4 ▸ (by linarith [h3] : 1 - (1 + u)⁻¹ < Real.log (1 + u))]

/-- The bracket of the source's `enclosedMass`, `(r_scale/r + 1)⁻¹`,
equals `u/(1+u)` at `u = r/r_scale`. -/
theorem inv_bracket_eq {rs r : ℝ} (hrs : rs ≠ 0) (hr : r ≠ 0) :
    (rs / r + 1)⁻¹ = (r / rs) / (1 + r / rs) := by
  rw [div_add' _ _ _ hr, add_div' _ _ _ hrs, inv_div, div_div_eq_mul_div,
    div_mul_cancel₀ _ hrs]
  ring_nf

/-- `NFW.enclosedMass` in terms of the dimensionless shape. -/
theorem NFW.enclosedMass_eq_shape (n : NFW) {r : ℝ} (hrs : n.r_scale ≠ 0)
    (hr : r ≠ 0) :
    n.enclosedMass r =
      16 * π * n.rho_scale * n.r_scale ^ 3 * nfwShape (r / n.r_scale) := by
  rw [NFW.enclosedMass, nfwShape, inv_bracket_eq hrs hr]

/-- `NFW.enclosedMass` is positive at positive radii. -/
theorem NFW.enclosedMass_pos (n : NFW) (hrs : 0 < n.r_scale)
    (hρ : 0 < n.rho_scale) {r : ℝ} (hr : 0 < r) : 0 < n.enclosedMass r := by
  rw [n.enclosedMass_eq_shape (ne_of_gt hrs) (ne_of_gt hr)]
  have hshape := nfwShape_pos (div_pos hr hrs)
  have hc : 0 < 16 * π * n.rho_scale * n.r_scale ^ 3 := by
    have := Real.pi_pos
    positivity
  exact mul_pos hc hshape

/-- `mean_enclosed_rho2rhocrit` is positive at positive radii. -/
theorem NFW.ratio_pos (n : NFW) (hrs : 0 < n.r_scale) (hρ : 0 < n.rho_scale)
    (hrc : 0 < n.rhocrit) {r : ℝ} (hr : 0 < r) :
    0 < n.mean_enclosed_rho2rhocrit r := by
  have hM := n.enclosedMass_pos hrs hρ hr
  have hden : 0 < 4 / 3 * π * r ^ 3 := by
    have := Real.pi_pos
    positivity
  exact div_pos (div_pos hM hden) hrc

/-! ## The overdensity-radius search -/

/-- `r` is the first grid radius whose mean enclosed density ratio is at or
below the threshold `thr`. -/
def NFW.isFirstCrossing (n : NFW) (thr r : ℝ) : Prop :=
  ∃ (i : ℕ) (hi : i < n.grid2.length),
    n.grid2.get ⟨i, hi⟩ = r ∧ n.mean_enclosed_rho2rhocrit r ≤ thr ∧
    ∀ j (hj : j < i),
      thr < n.mean_enclosed_rho2rhocrit (n.grid2.get ⟨j, hj.trans hi⟩)

/-- Claim C3: when a crossing exists on the grid, `r200` (`r200m`) returns
the first grid radius at or below `delta` (`delta·Om(z)`) — a grid radius,
not an interpolation — and `M200`/`M200m` are `enclosedMass` evaluated at
those radii. -/
theorem C3_overdensity_search (n : NFW) (delta : ℝ)
    (h : ∃ r ∈ n.grid2, n.mean_enclosed_rho2rhocrit r ≤ delta)
    (hm : ∃ r ∈ n.grid2, n.mean_enclosed_rho2rhocrit r ≤ delta * n.Om) :
    (∃ r, n.r200? delta = some r ∧ n.isFirstCrossing delta r) ∧
    (∃ r, n.r200m? delta = some r ∧ n.isFirstCrossing (delta * n.Om) r) ∧
    n.M200? delta = (n.r200? delta).map n.enclosedMass ∧
    n.M200m? delta = (n.r200m? delta).map n.enclosedMass := by
  refine ⟨?_, ?_, rfl, rfl⟩
  · obtain ⟨i, hi, heq, hle, hfirst⟩ :=
      crossing_lookup n.mean_enclosed_rho2rhocrit n.grid2 delta h
    exact ⟨n.grid2.get ⟨i, hi⟩, heq, i, hi, rfl, hle, hfirst⟩
  · obtain ⟨i, hi, heq, hle, hfirst⟩ :=
      crossing_lookup n.mean_enclosed_rho2rhocrit n.grid2 (delta * n.Om) hm
    exact ⟨n.grid2.get ⟨i, hi⟩, heq, i, hi, rfl, hle, hfirst⟩

/-- Claim C8: when the threshold is below the ratio at every grid point,
the searches in `r200`, `r500`, `r200m`, `r500m` find no crossing and the
grid lookup is out of range (`none`, the uncaught `IndexError`). -/
theorem C8_no_crossing_out_of_range (n : NFW) (delta : ℝ)
    (h : ∀ r ∈ n.grid2, delta < n.mean_enclosed_rho2rhocrit r)
    (hm : ∀ r ∈ n.grid2, delta * n.Om < n.mean_enclosed_rho2rhocrit r) :
    n.r200? delta = none ∧ n.r500? delta = none ∧
    n.r200m? delta = none ∧ n.r500m? delta = none :=
  ⟨no_crossing_lookup _ _ _ h, no_crossing_lookup _ _ _ h,
    no_crossing_lookup _ _ _ hm, no_crossing_lookup _ _ _ hm⟩

/-! ## Concrete evaluation of the overdensity search -/

theorem testInst2_mass_at_32 :
    (testInst 2).enclosedMass (3 / 2) = 9 * (Real.log (5 / 2) - 3 / 5) := by
  have hπ : (π : ℝ) ≠ 0 := Real.pi_ne_zero
  rw [NFW.enclosedMass, testInst2_rho_scale, testInst_r_scale]
  have h1 : (1 : ℝ) + 3 / 2 / 1 = 5 / 2 := by norm_num
  have h2 : ((1 : ℝ) / (3 / 2) + 1)⁻¹ = 3 / 5 := by norm_num
  rw [h1, h2]
  field_simp

theorem testInst2_ratio_at_32 :
    (testInst 2).mean_enclosed_rho2rhocrit (3 / 2) =
      48 * π ^ 2 * (Real.log (5 / 2) - 3 / 5) := by
  have hπ : (π : ℝ) ≠ 0 := Real.pi_ne_zero
  rw [NFW.mean_enclosed_rho2rhocrit, testInst2_mass_at_32]
  show 9 * (Real.log (5 / 2) - 3 / 5) / (4 / 3 * π * (3 / 2) ^ 3) /
      (1 / (24 * π ^ 3)) = _
  field_simp
  ring

theorem log_five_halves_le : Real.log (5 / 2) ≤ 3 / 2 := by
  have h := Real.log_le_sub_one_of_pos (show (0 : ℝ) < 5 / 2 by norm_num)
  linarith

theorem log_five_halves_ge : (3 : ℝ) / 5 ≤ Real.log (5 / 2) := by
  have h := Real.log_le_sub_one_of_pos (show (0 : ℝ) < 2 / 5 by norm_num)
  have h2 : Real.log (2 / 5) = -Real.log (5 / 2) := by
    rw [← Real.log_inv]
    norm_num
  linarith [h2 ▸ h]

theorem testInst2_ratio_at_32_le :
    (testInst 2).mean_enclosed_rho2rhocrit (3 / 2) ≤ 10 ^ 6 := by
  rw [testInst2_ratio_at_32]
  have hL1 : Real.log (5 / 2) - 3 / 5 ≤ 9 / 10 := by
    linarith [log_five_halves_le]
  have hL0 : 0 ≤ Real.log (5 / 2) - 3 / 5 := by
    linarith [log_five_halves_ge]
  have hπ2 : π ^ 2 ≤ 16 := by
    nlinarith [Real.pi_le_four, Real.pi_pos]
  have hmul : π ^ 2 * (Real.log (5 / 2) - 3 / 5) ≤ 16 * (9 / 10) :=
    mul_le_mul hπ2 hL1 hL0 (by norm_num)
  nlinarith [hmul]

/-- Witness for `C3_overdensity_search` at the concrete halo `testInst 2`,
threshold `10^6`. -/
theorem C3_overdensity_search_witness :
    (∃ r ∈ (testInst 2).grid2,
      (testInst 2).mean_enclosed_rho2rhocrit r ≤ 10 ^ 6) ∧
    (∃ r ∈ (testInst 2).grid2,
      (testInst 2).mean_enclosed_rho2rhocrit r ≤ 10 ^ 6 * (testInst 2).Om) ∧
    ((∃ r, (testInst 2).r200? (10 ^ 6) = some r ∧
        (testInst 2).isFirstCrossing (10 ^ 6) r) ∧
      (∃ r, (testInst 2).r200m? (10 ^ 6) = some r ∧
        (testInst 2).isFirstCrossing (10 ^ 6 * (testInst 2).Om) r) ∧
      (testInst 2).M200? (10 ^ 6) =
        ((testInst 2).r200? (10 ^ 6)).map (testInst 2).enclosedMass ∧
      (testInst 2).M200m? (10 ^ 6) =
        ((testInst 2).r200m? (10 ^ 6)).map (testInst 2).enclosedMass) := by
  have hmem : (3 / 2 : ℝ) ∈ (testInst 2).grid2 := by
    rw [testInst2_grid2]
    simp
  have h1 : ∃ r ∈ (testInst 2).grid2,
      (testInst 2).mean_enclosed_rho2rhocrit r ≤ 10 ^ 6 :=
    ⟨3 / 2, hmem, testInst2_ratio_at_32_le⟩
  have h2 : ∃ r ∈ (testInst 2).grid2,
      (testInst 2).mean_enclosed_rho2rhocrit r ≤ 10 ^ 6 * (testInst 2).Om := by
    refine ⟨3 / 2, hmem, ?_⟩
    have hOm : (testInst 2).Om = 1 := rfl
    rw [hOm, mul_one]
    exact testInst2_ratio_at_32_le
  exact ⟨h1, h2, C3_overdensity_search (testInst 2) (10 ^ 6) h1 h2⟩

/-- Witness for `C8_no_crossing_out_of_range` at the concrete halo
`testInst 2`, threshold `0` (below the ratio everywhere). -/
theorem C8_no_crossing_witness :
    (∀ r ∈ (testInst 2).grid2,
      (0 : ℝ) < (testInst 2).mean_enclosed_rho2rhocrit r) ∧
    (∀ r ∈ (testInst 2).grid2,
      (0 : ℝ) * (testInst 2).Om < (testInst 2).mean_enclosed_rho2rhocrit r) ∧
    ((testInst 2).r200? 0 = none ∧ (testInst 2).r500? 0 = none ∧
      (testInst 2).r200m? 0 = none ∧ (testInst 2).r500m? 0 = none) := by
  have hrs : 0 < (testInst 2).r_scale := by
    rw [testInst_r_scale]
    norm_num
  have hρ : 0 < (testInst 2).rho_scale := by
    rw [testInst2_rho_scale]
    positivity
  have hrc : 0 < (testInst 2).rhocrit := by
    show (0 : ℝ) < 1 / (24 * π ^ 3)
    positivity
  have h1 : ∀ r ∈ (testInst 2).grid2,
      (0 : ℝ) < (testInst 2).mean_enclosed_rho2rhocrit r := by
    intro r hr
    rw [testInst2_grid2] at hr
    have hrpos : 0 < r := by
      simp only [List.mem_cons, List.not_mem_nil, or_false] at hr
      rcases hr with rfl | rfl | rfl <;> norm_num
    exact (testInst 2).ratio_pos hrs hρ hrc hrpos
  have h2 : ∀ r ∈ (testInst 2).grid2,
      (0 : ℝ) * (testInst 2).Om < (testInst 2).mean_enclosed_rho2rhocrit r := by
    intro r hr
    simpa using h1 r hr
  exact ⟨h1, h2, C8_no_crossing_out_of_range (testInst 2) 0 h1 h2⟩

/-! ## The analytic logarithmic derivative of vc (NFW) -/

theorem Gconst_pos : 0 < Gconst := by
  norm_num [Gconst]

theorem hasDerivAt_log_one_add_div {rs r : ℝ} (hrs : 0 < rs) (hr : 0 < r) :
    HasDerivAt (fun x : ℝ => Real.log (1 + x / rs)) (1 / rs / (1 + r / rs)) r := by
  have h1 : HasDerivAt (fun x : ℝ => 1 + x / rs) (1 / rs) r := by
    have h0 := (hasDerivAt_id r).div_const rs
    exact h0.const_add 1
  exact h1.log (by positivity)

theorem hasDerivAt_inv_bracket {rs r : ℝ} (hrs : 0 < rs) (hr : 0 < r) :
    HasDerivAt (fun x : ℝ => (rs / x + 1)⁻¹)
      (-(rs * -(r ^ 2)⁻¹) / (rs / r + 1) ^ 2) r := by
  have h1 : HasDerivAt (fun x : ℝ => rs / x + 1) (rs * -(r ^ 2)⁻¹) r := by
    have h2 := ((hasDerivAt_inv (ne_of_gt hr)).const_mul rs).add_const 1
    simpa [div_eq_mul_inv] using h2
  have hne : rs / r + 1 ≠ 0 := by positivity
  exact h1.inv hne

theorem NFW.hasDerivAt_enclosedMass (n : NFW) (hrs : 0 < n.r_scale) {r : ℝ}
    (hr : 0 < r) :
    HasDerivAt n.enclosedMass
      (16 * π * n.rho_scale * n.r_scale ^ 3 * (r / (n.r_scale + r) ^ 2)) r := by
  have h := ((hasDerivAt_log_one_add_div hrs hr).sub
    (hasDerivAt_inv_bracket hrs hr)).const_mul
      (16 * π * n.rho_scale * n.r_scale ^ 3)
  convert h using 1
  have h1 : n.r_scale ≠ 0 := ne_of_gt hrs
  have h2 : (r : ℝ) ≠ 0 := ne_of_gt hr
  have h3 : n.r_scale + r ≠ 0 := by positivity
  field_simp
  ring

/-- `ln ∘ vc ∘ exp` written through `enclosedMass` (valid for every `t`,
since `exp t > 0` and the enclosed mass is then positive). -/
theorem NFW.log_vc_exp_eq (n : NFW) (hrs : 0 < n.r_scale)
    (hρ : 0 < n.rho_scale) :
    (fun t => Real.log (n.vc (Real.exp t))) =
      (fun t => (Real.log Gconst + Real.log (n.enclosedMass (Real.exp t)) - t)
        / 2) := by
  funext t
  have hx : 0 < Real.exp t := Real.exp_pos t
  have hM : 0 < n.enclosedMass (Real.exp t) := n.enclosedMass_pos hrs hρ hx
  have hG : 0 < Gconst := Gconst_pos
  rw [NFW.vc, Real.log_sqrt (by positivity),
    Real.log_div (by positivity) (ne_of_gt hx),
    Real.log_mul (ne_of_gt hG) (ne_of_gt hM), Real.log_exp]

/-- The bracket rewrite `r/rs/(1+r/rs) = r/(rs+r)` and its consequence:
positivity of `ln((rs+r)/rs) - r/(rs+r)` for positive `rs`, `r`. -/
theorem shape_pos_B {rs r : ℝ} (hrs : 0 < rs) (hr : 0 < r) :
    0 < Real.log ((rs + r) / rs) - r / (rs + r) := by
  have h0 := nfwShape_pos (div_pos hr hrs)
  rw [nfwShape] at h0
  have hmul : rs * (1 + r / rs) = rs + r := by
    field_simp
  have h2 : r / rs / (1 + r / rs) = r / (rs + r) := by
    rw [div_div, hmul]
  have h1 : (1 : ℝ) + r / rs = (rs + r) / rs := by
    field_simp
  rw [h2, h1] at h0
  exact h0

/-- `NFW.enclosedMass` with the bracket written over the common
denominators `rs` and `rs + r`. -/
theorem NFW.enclosedMass_eq_B (n : NFW) (hrs : 0 < n.r_scale) {r : ℝ}
    (hr : 0 < r) :
    n.enclosedMass r = 16 * π * n.rho_scale * n.r_scale ^ 3 *
      (Real.log ((n.r_scale + r) / n.r_scale) - r / (n.r_scale + r)) := by
  rw [n.enclosedMass_eq_shape (ne_of_gt hrs) (ne_of_gt hr), nfwShape]
  have hmul : n.r_scale * (1 + r / n.r_scale) = n.r_scale + r := by
    field_simp
  have h2 : r / n.r_scale / (1 + r / n.r_scale) = r / (n.r_scale + r) := by
    rw [div_div, hmul]
  have h1 : (1 : ℝ) + r / n.r_scale = (n.r_scale + r) / n.r_scale := by
    field_simp
  rw [h2, h1]

/-- The field algebra identifying the code's `dlnvc_dlnR` expression with
`(r·M'(r)/M(r) - 1)/2`. -/
theorem dlnvc_algebra {rs r ρ : ℝ} (hrs : 0 < rs) (hr : 0 < r) (hρ : 0 < ρ)
    (B : ℝ) (hshape : 0 < B - r / (rs + r)) :
    0.5 * (-r ^ 2 + (rs + r) * (-r + (rs + r) * B)) /
        ((rs + r) * (r - (rs + r) * B)) =
      (16 * π * ρ * rs ^ 3 * (r / (rs + r) ^ 2) * r /
        (16 * π * ρ * rs ^ 3 * (B - r / (rs + r))) - 1) / 2 := by
  have hA : (0 : ℝ) < rs + r := by linarith
  have hAne : rs + r ≠ 0 := ne_of_gt hA
  have hshne : B - r / (rs + r) ≠ 0 := ne_of_gt hshape
  have h4 : (rs + r) * (B - r / (rs + r)) = (rs + r) * B - r := by
    rw [mul_sub]
    congr 1
    field_simp
  have hd : r - (rs + r) * B < 0 := by
    nlinarith [mul_pos hA hshape, h4]
  have hdne : r - (rs + r) * B ≠ 0 := ne_of_lt hd
  have hC : (16 : ℝ) * π * ρ * rs ^ 3 ≠ 0 := by
    have := Real.pi_pos
    positivity
  have hnum : 16 * π * ρ * rs ^ 3 * (r / (rs + r) ^ 2) * r =
      16 * π * ρ * rs ^ 3 * (r / (rs + r) ^ 2 * r) := by
    ring
  have hdne2 : (rs + r) * B - r ≠ 0 := by
    intro hz
    apply hdne
    linarith
  have h5 : B - r / (rs + r) = ((rs + r) * B - r) / (rs + r) := by
    field_simp
    ring
  rw [hnum, mul_div_mul_left _ _ hC, h5, div_div_eq_mul_div]
  field_simp
  ring

/-- Claim C2: for `r > 0` (and positive scale radius and scale density),
the code's closed-form `NFW.dlnvc_dlnR r` is the exact derivative of
`ln vc` with respect to `ln r` — the derivative at `ln r` of
`t ↦ ln (vc (e^t))` — with no finite differencing. -/
theorem C2_dlnvc_dlnR_exact (n : NFW) (hrs : 0 < n.r_scale)
    (hρ : 0 < n.rho_scale) {r : ℝ} (hr : 0 < r) :
    HasDerivAt (fun t => Real.log (n.vc (Real.exp t)))
      (n.dlnvc_dlnR r) (Real.log r) := by
  rw [n.log_vc_exp_eq hrs hρ]
  have hexp0 : HasDerivAt Real.exp (Real.exp (Real.log r)) (Real.log r) :=
    Real.hasDerivAt_exp _
  have hM2 : HasDerivAt n.enclosedMass
      (16 * π * n.rho_scale * n.r_scale ^ 3 * (r / (n.r_scale + r) ^ 2))
      (Real.exp (Real.log r)) := by
    rw [Real.exp_log hr]
    exact n.hasDerivAt_enclosedMass hrs hr
  have hcomp := hM2.comp (Real.log r) hexp0
  rw [Real.exp_log hr] at hcomp
  have hMpos : 0 < n.enclosedMass r := n.enclosedMass_pos hrs hρ hr
  have hMne : n.enclosedMass (Real.exp (Real.log r)) ≠ 0 := by
    rw [Real.exp_log hr]
    exact ne_of_gt hMpos
  have hlog := hcomp.log hMne
  simp only [Function.comp] at hlog
  rw [Real.exp_log hr] at hlog
  have hfull := ((hlog.const_add (Real.log Gconst)).sub
    (hasDerivAt_id (Real.log r))).div_const 2
  convert hfull using 1
  rw [n.enclosedMass_eq_B hrs hr, NFW.dlnvc_dlnR]
  show 0.5 * (-r ^ 2 + (n.r_scale + r) *
      (-r + (n.r_scale + r) * Real.log ((n.r_scale + r) / n.r_scale))) /
      ((n.r_scale + r) * (r - (n.r_scale + r) *
        Real.log ((n.r_scale + r) / n.r_scale))) = _
  exact dlnvc_algebra hrs hr hρ _ (shape_pos_B hrs hr)

/-- Witness for `C2_dlnvc_dlnR_exact` at the concrete halo `testInst 2`,
radius `r = 1`. -/
theorem C2_dlnvc_dlnR_exact_witness :
    (0 < (testInst 2).r_scale ∧ 0 < (testInst 2).rho_scale ∧ (0 : ℝ) < 1) ∧
    HasDerivAt (fun t => Real.log ((testInst 2).vc (Real.exp t)))
      ((testInst 2).dlnvc_dlnR 1) (Real.log 1) := by
  have hrs : 0 < (testInst 2).r_scale := by
    rw [testInst_r_scale]
    norm_num
  have hρ : 0 < (testInst 2).rho_scale := by
    rw [testInst2_rho_scale]
    positivity
  have hr : (0 : ℝ) < 1 := by norm_num
  exact ⟨⟨hrs, hρ, hr⟩, C2_dlnvc_dlnR_exact (testInst 2) hrs hρ hr⟩

/-! ## Strict monotonicity of the mean enclosed density ratio -/

theorem hasDerivAt_nfwShape {u : ℝ} (hu : -1 < u) :
    HasDerivAt nfwShape (u / (1 + u) ^ 2) u := by
  have hne : (1 : ℝ) + u ≠ 0 := by linarith
  have h1 : HasDerivAt (fun v : ℝ => 1 + v) 1 u := (hasDerivAt_id u).const_add 1
  have hlog : HasDerivAt (fun v : ℝ => Real.log (1 + v)) (1 / (1 + u)) u :=
    h1.log hne
  have hdiv : HasDerivAt (fun v : ℝ => v / (1 + v))
      ((1 * (1 + u) - u * 1) / (1 + u) ^ 2) u := (hasDerivAt_id u).div h1 hne
  have h := hlog.sub hdiv
  convert h using 1
  field_simp
  ring

theorem hasDerivAt_hAux {u : ℝ} (hu : -1 < u) :
    HasDerivAt (fun v : ℝ => 3 * nfwShape v - v ^ 2 / (1 + v) ^ 2)
      (u * (1 + 3 * u) / (1 + u) ^ 3) u := by
  have hne : (1 : ℝ) + u ≠ 0 := by linarith
  have h1 := (hasDerivAt_nfwShape hu).const_mul (3 : ℝ)
  have hsq : HasDerivAt (fun v : ℝ => v ^ 2) (2 * u) u := by
    simpa using hasDerivAt_pow 2 u
  have hden : HasDerivAt (fun v : ℝ => (1 + v) ^ 2) (2 * (1 + u)) u := by
    have h0 := (hasDerivAt_id u).const_add 1
    have h2 := h0.pow 2
    simpa using h2
  have hdenne : ((1 : ℝ) + u) ^ 2 ≠ 0 := pow_ne_zero 2 hne
  have hdiv := hsq.div hden hdenne
  have h := h1.sub hdiv
  convert h using 1
  field_simp
  ring

/-- `3·(ln(1+u) - u/(1+u)) > u²/(1+u)²` for `u > 0`: the auxiliary
inequality driving the monotonicity of the mean enclosed density. -/
theorem hAux_pos {u : ℝ} (hu : 0 < u) :
    0 < 3 * nfwShape u - u ^ 2 / (1 + u) ^ 2 := by
  have key : StrictMonoOn (fun v : ℝ => 3 * nfwShape v - v ^ 2 / (1 + v) ^ 2)
      (Set.Ici 0) := by
    apply strictMonoOn_of_deriv_pos (convex_Ici 0)
    · intro v hv
      have hv' : (-1 : ℝ) < v := by
        have : (0 : ℝ) ≤ v := hv
        linarith
      exact (hasDerivAt_hAux hv').continuousAt.continuousWithinAt
    · intro v hv
      rw [interior_Ici] at hv
      have hv0 : 0 < v := hv
      have hv' : (-1 : ℝ) < v := by linarith
      rw [(hasDerivAt_hAux hv').deriv]
      have hd3 : (0 : ℝ) < (1 + v) ^ 3 := by positivity
      exact div_pos (mul_pos hv0 (by linarith)) hd3
  have hsh0 : nfwShape 0 = 0 := by
    simp [nfwShape]
  have hlt := key Set.left_mem_Ici (Set.mem_Ici.mpr hu.le) hu
  simpa [hsh0] using hlt

/-- The dimensionless mean enclosed density `nfwShape u / u³` is strictly
decreasing on `u > 0`. -/
theorem gAux_strictAntiOn :
    StrictAntiOn (fun u : ℝ => nfwShape u / u ^ 3) (Set.Ioi 0) := by
  apply strictAntiOn_of_deriv_neg (convex_Ioi 0)
  · intro v hv
    have hv0 : 0 < v := hv
    have hg : HasDerivAt (fun u : ℝ => nfwShape u / u ^ 3)
        ((v / (1 + v) ^ 2 * v ^ 3 - nfwShape v * (3 * v ^ 2)) / (v ^ 3) ^ 2) v := by
      have hcube : HasDerivAt (fun x : ℝ => x ^ 3) (3 * v ^ 2) v := by
        simpa using hasDerivAt_pow 3 v
      exact (hasDerivAt_nfwShape (by linarith)).div hcube (by positivity)
    exact hg.continuousAt.continuousWithinAt
  · intro v hv
    rw [interior_Ioi] at hv
    have hv0 : 0 < v := hv
    have hcube : HasDerivAt (fun x : ℝ => x ^ 3) (3 * v ^ 2) v := by
      simpa using hasDerivAt_pow 3 v
    have hg : HasDerivAt (fun u : ℝ => nfwShape u / u ^ 3)
        ((v / (1 + v) ^ 2 * v ^ 3 - nfwShape v * (3 * v ^ 2)) / (v ^ 3) ^ 2) v :=
      (hasDerivAt_nfwShape (by linarith)).div hcube (by positivity)
    rw [hg.deriv]
    have hA := hAux_pos hv0
    have hnum : v / (1 + v) ^ 2 * v ^ 3 - nfwShape v * (3 * v ^ 2) =
        -(v ^ 2 * (3 * nfwShape v - v ^ 2 / (1 + v) ^ 2)) := by
      field_simp
      ring
    rw [hnum]
    apply div_neg_of_neg_of_pos
    · have hpos : 0 < v ^ 2 * (3 * nfwShape v - v ^ 2 / (1 + v) ^ 2) :=
        mul_pos (by positivity) hA
      linarith
    · positivity

/-- Claim C4: for a halo with `Mvir > 0`, `cvir > 0`, `rho_scale > 0` (and
a physically valid external cosmology), `mean_enclosed_rho2rhocrit` is
strictly decreasing on `(0, 2·rvir]`. -/
theorem C4_mean_density_strictly_decreasing (n : NFW) (hM : 0 < n.Mvir)
    (hc : 0 < n.cvir) (hρ : 0 < n.rho_scale) (hΔ : 0 < n.Delta_c)
    (hrc : 0 < n.rhocrit) :
    StrictAntiOn n.mean_enclosed_rho2rhocrit (Set.Ioc 0 (2 * n.rvir)) := by
  have hrs : 0 < n.r_scale := n.r_scale_pos hM hΔ hrc hc
  intro r1 h1 r2 h2 h12
  have h1a : 0 < r1 := h1.1
  have h2a : 0 < r2 := h2.1
  have hu1 : 0 < r1 / n.r_scale := div_pos h1a hrs
  have hu2 : 0 < r2 / n.r_scale := div_pos h2a hrs
  have hult : r1 / n.r_scale < r2 / n.r_scale := by
    exact div_lt_div_of_pos_right h12 hrs
  have key := gAux_strictAntiOn (Set.mem_Ioi.mpr hu1) (Set.mem_Ioi.mpr hu2) hult
  have hratio : ∀ {r : ℝ}, 0 < r → n.mean_enclosed_rho2rhocrit r =
      12 * n.rho_scale / n.rhocrit *
        (nfwShape (r / n.r_scale) / (r / n.r_scale) ^ 3) := by
    intro r hr
    rw [NFW.mean_enclosed_rho2rhocrit,
      n.enclosedMass_eq_shape (ne_of_gt hrs) (ne_of_gt hr)]
    have hπ : (π : ℝ) ≠ 0 := Real.pi_ne_zero
    have hrne : r ≠ 0 := ne_of_gt hr
    have hrsne : n.r_scale ≠ 0 := ne_of_gt hrs
    have hrcne : n.rhocrit ≠ 0 := ne_of_gt hrc
    field_simp
    ring
  rw [hratio h1a, hratio h2a]
  have hcoef : 0 < 12 * n.rho_scale / n.rhocrit := by positivity
  exact mul_lt_mul_of_pos_left key hcoef

/-- Witness for `C4_mean_density_strictly_decreasing` at the concrete halo
`testInst 2`. -/
theorem C4_mean_density_witness :
    (0 < (testInst 2).Mvir ∧ 0 < (testInst 2).cvir ∧
      0 < (testInst 2).rho_scale ∧ 0 < (testInst 2).Delta_c ∧
      0 < (testInst 2).rhocrit) ∧
    StrictAntiOn (testInst 2).mean_enclosed_rho2rhocrit
      (Set.Ioc 0 (2 * (testInst 2).rvir)) := by
  have hM : 0 < (testInst 2).Mvir := by norm_num [testInst]
  have hc : 0 < (testInst 2).cvir := by
    rw [testInst_cvir]
    norm_num
  have hρ : 0 < (testInst 2).rho_scale := by
    rw [testInst2_rho_scale]
    positivity
  have hΔ : 0 < (testInst 2).Delta_c := by
    rw [testInst_Delta_c]
    positivity
  have hrc : 0 < (testInst 2).rhocrit := by
    show (0 : ℝ) < 1 / (24 * π ^ 3)
    positivity
  exact ⟨⟨hM, hc, hρ, hΔ, hrc⟩,
    C4_mean_density_strictly_decreasing (testInst 2) hM hc hρ hΔ hrc⟩
